import Mathlib

/-!
Shallow embedding of `qrs_detector_online/QRSDetector.py` over `ℚ`.

Python floats are modelled as exact rationals; the numeric recurrences of the
code (EMA updates, threshold blend, derivative, square, box convolution, the
peak finder's epsilon padding, and the `lfilter` IIR recurrence) are translated
term by term.  The Butterworth coefficient design (`scipy.signal.butter`) is
transcendental and is represented by explicit coefficient lists `b`, `a`
threaded through the pipeline; the design's validity check is modelled
separately (see `digitalCutoffsValid`).
-/

namespace QRS

/-- Source constant `self.number_of_samples_stored = 200` from `__init__`. -/
def number_of_samples_stored : Nat := 200

/-- Source constant `self.integration_window = 15` from `__init__`. -/
def integration_window : Nat := 15

/-- Source constant `self.findpeaks_limit = 0.40` from `__init__`. -/
def findpeaks_limit : ℚ := 2/5

/-- Source constant `self.findpeaks_spacing = 50` from `__init__`. -/
def findpeaks_spacing : Nat := 50

/-- Source constant `self.refractory_period = 120` from `__init__`. -/
def refractory_period : Nat := 120

/-- Source constant `self.detection_window = 40` from `__init__`. -/
def detection_window : Nat := 40

/-- Source constant `self.signal_peak_filtering_factor = 0.125` from `__init__`. -/
def signal_peak_filtering_factor : ℚ := 1/8

/-- Source constant `self.noise_peak_filtering_factor = 0.125` from `__init__`. -/
def noise_peak_filtering_factor : ℚ := 1/8

/-- Source constant `self.signal_noise_diff_weight = 0.25` from `__init__`. -/
def signal_noise_diff_weight : ℚ := 1/4

/-- Source constant `self.filter_lowcut = 0.0` from `__init__`. -/
def filter_lowcut : ℚ := 0

/-- Source constant `self.filter_highcut = 15.0` from `__init__`. -/
def filter_highcut : ℚ := 15

/-- The mutable instance fields of `QRSDetector` that the detection pipeline
reads and writes (`most_recent_measurements`, `time_since_last_detected_qrs`,
`signal_peak_value`, `noise_peak_value`, `threshold_value`). -/
structure QRSState where
  most_recent_measurements : List ℚ
  time_since_last_detected_qrs : Nat
  signal_peak_value : ℚ
  noise_peak_value : ℚ
  threshold_value : ℚ
deriving DecidableEq

/-- The field values set in `__init__`:
`deque([0], 200)`, counter `0`, and the three levels `0.0`. -/
def initState : QRSState := ⟨[0], 0, 0, 0, 0⟩

/-- Source `__init__` itself: it stores the fixed parameters and the seed state and
performs no cutoff validation whatsoever (the filter is designed only inside
`bandpass_filter`, which runs once per pipeline pass); the serial connection
it then opens is outside the detection core.  It never fails with a
configuration error, hence always `Except.ok`. -/
def construct (_signal_freq : ℚ) : Except Unit QRSState := Except.ok initState

/-- Source `deque.append` on a deque with `maxlen = number_of_samples_stored`:
append on the right, keeping only the most recent `number_of_samples_stored`
entries (the oldest is evicted on overflow). -/
def pushWindow (w : List ℚ) (m : ℚ) : List ℚ :=
  (w ++ [m]).drop (w.length + 1 - number_of_samples_stored)

/-- Dot product of a coefficient list with an (equally oriented) value list,
truncating at the shorter one; used to express the `lfilter` recurrence. -/
def dotProd : List ℚ → List ℚ → ℚ
  | [], _ => 0
  | _ :: _, [] => 0
  | c :: cs, v :: vs => c * v + dotProd cs vs

/-- The running state of `scipy.signal.lfilter` in direct form:
`xrev`/`yrev` hold the already-seen inputs/outputs, most recent first;
each new output is
`y[n] = (sum b[k]*x[n-k] - sum a[k]*y[n-k] for k >= 1) / a[0]`. -/
def lfilterAux (b aTail : List ℚ) (a0 : ℚ) : List ℚ → List ℚ → List ℚ → List ℚ
  | _, _, [] => []
  | xrev, yrev, x :: xs =>
    let y := (dotProd b (x :: xrev) - dotProd aTail yrev) / a0
    y :: lfilterAux b aTail a0 (x :: xrev) (y :: yrev) xs

/-- Source `scipy.signal.lfilter(b, a, x)`: the causal IIR recurrence applied to the
whole window (`y = lfilter(b, a, data)` in `bandpass_filter`). -/
def lfilter (b a : List ℚ) (x : List ℚ) : List ℚ :=
  lfilterAux b a.tail (a.headD 1) [] [] x

/-- Source `np.ediff1d(filtered_signal)`: `out[i] = in[i+1] - in[i]`. -/
def ediff1d (l : List ℚ) : List ℚ := List.zipWith (fun u v => v - u) l l.tail

/-- Source `differentiated_signal**2`: elementwise square. -/
def square (l : List ℚ) : List ℚ := l.map (fun t => t ^ 2)

/-- Pointwise sum of two sequences, zero-extending the shorter one;
building block of the full convolution. -/
def addPointwise : List ℚ → List ℚ → List ℚ
  | [], ys => ys
  | x :: xs, [] => x :: xs
  | x :: xs, y :: ys => (x + y) :: addPointwise xs ys

/-- Source `np.convolve(a, v)` (full mode) for nonempty `a`:
`conv (a0 :: rest) v = a0 * v + shift (conv rest v)`. -/
def convFull : List ℚ → List ℚ → List ℚ
  | [], _ => []
  | x :: xs, v => addPointwise (v.map (fun t => x * t)) ((0 : ℚ) :: convFull xs v)

/-- Source `np.ones(integration_window)`: the unit-valued box kernel. -/
def onesKernel (n : Nat) : List ℚ := List.replicate n 1

/-- The `1.e-6` epsilon subtracted from the boundary values in `findpeaks`. -/
def fp_eps : ℚ := 1/1000000

/-- The padded array `x` built in `findpeaks`:
`x[:spacing] = data[0] - 1.e-6`, `x[-spacing:] = data[-1] - 1.e-6`,
`x[spacing:spacing+len] = data`. -/
def fp_pad (data : List ℚ) (spacing : Nat) : List ℚ :=
  List.replicate spacing (data.headD 0 - fp_eps) ++
    (data ++ List.replicate spacing (data.getLastD 0 - fp_eps))

/-- The numpy slice `x[start : start + n]`. -/
def fp_slice (x : List ℚ) (start n : Nat) : List ℚ := (x.drop start).take n

/-- Vectorized strict comparison `xs > ys` (elementwise, numpy style). -/
def gtMask (xs ys : List ℚ) : List Bool :=
  List.zipWith (fun u v => decide (v < u)) xs ys

/-- Vectorized `np.logical_and`. -/
def andMask (xs ys : List Bool) : List Bool := List.zipWith (· && ·) xs ys

/-- One iteration of the candidate loop of `findpeaks`: take the slices
`h_b = x[spacing-s-1:][:n]`, `h_c = x[spacing:][:n]`, `h_a = x[spacing+s+1:][:n]`
and accumulate `peak_candidate ∧ (h_c > h_b) ∧ (h_c > h_a)`. -/
def fp_step (x : List ℚ) (spacing n : Nat) (pc : List Bool) (s : Nat) : List Bool :=
  andMask pc
    (andMask (gtMask (fp_slice x spacing n) (fp_slice x (spacing - s - 1) n))
             (gtMask (fp_slice x spacing n) (fp_slice x (spacing + s + 1) n)))

/-- The candidate loop of `findpeaks`: starting from an all-`True` mask of
length `n`, run `fp_step` for each `s` in `range(spacing)`. -/
def fp_fold (x : List ℚ) (spacing n : Nat) : List Bool :=
  (List.range spacing).foldl (fp_step x spacing n) (List.replicate n true)

/-- Source `findpeaks(data, spacing, limit)`: indices of the accumulated candidate
mask (`np.argwhere`, ascending), then the static floor filter
`ind = ind[data[ind] > limit]`. -/
def findpeaks (data : List ℚ) (spacing : Nat) (limit : ℚ) : List Nat :=
  let n := data.length
  let x := fp_pad data spacing
  let pc := fp_fold x spacing n
  let ind := (List.range n).filter (fun i => pc.getD i false)
  ind.filter (fun i => decide (limit < data.getD i 0))

/-- The caller-side restriction in `extract_peaks`:
`detected_peaks_indices[detected_peaks_indices > number_of_samples_stored - detection_window]`. -/
def restrictPeaks (ind : List Nat) : List Nat :=
  ind.filter (fun i => decide (number_of_samples_stored - detection_window < i))

/-- The integrated (energy) signal of one pipeline pass over window `w`:
band-pass filter, derivative, square, moving-window integration. -/
def integratedSignal (b a : List ℚ) (w : List ℚ) : List ℚ :=
  convFull (square (ediff1d (lfilter b a w))) (onesKernel integration_window)

/-- The candidate list handed to `detect_qrs`: the restricted peak indices
paired with their values in the integrated signal
(`detected_peaks_values = integrated_signal[detected_peaks_indices]`). -/
def passPeaks (b a : List ℚ) (w : List ℚ) : List (Nat × ℚ) :=
  (restrictPeaks (findpeaks (integratedSignal b a w) findpeaks_spacing findpeaks_limit)).map
    (fun i => (i, (integratedSignal b a w).getD i 0))

/-- Source `detect_qrs`: increment the counter; if past the refractory period and a
candidate exists, classify the most recent candidate (`[-1]`) as SIGNAL
(`value > threshold_value`: reset counter, EMA-update the signal level, emit a
detection through `handle_detection` — the returned flag) or NOISE (EMA-update
the noise level), then recompute the threshold from the current levels. -/
def detect_qrs (st : QRSState) (peaks : List (Nat × ℚ)) : QRSState × Bool :=
  let t := st.time_since_last_detected_qrs + 1
  if refractory_period < t then
    match peaks.getLast? with
    | some (_, v) =>
      if st.threshold_value < v then
        let s := signal_peak_filtering_factor * v +
          (1 - signal_peak_filtering_factor) * st.signal_peak_value
        ({ st with
            time_since_last_detected_qrs := 0,
            signal_peak_value := s,
            threshold_value :=
              st.noise_peak_value + signal_noise_diff_weight * (s - st.noise_peak_value) }, true)
      else
        let nz := noise_peak_filtering_factor * v +
          (1 - noise_peak_filtering_factor) * st.noise_peak_value
        ({ st with
            time_since_last_detected_qrs := t,
            noise_peak_value := nz,
            threshold_value :=
              nz + signal_noise_diff_weight * (st.signal_peak_value - nz) }, false)
    | none => ({ st with time_since_last_detected_qrs := t }, false)
  else ({ st with time_since_last_detected_qrs := t }, false)

/-- Source `extract_peaks`: one full pipeline pass over the current window, ending in
`detect_qrs` (the Python method reads `self.most_recent_measurements`). -/
def extract_peaks (b a : List ℚ) (st : QRSState) : QRSState × Bool :=
  detect_qrs st (passPeaks b a st.most_recent_measurements)

/-- Source `process_measurement` from the validated measurement value onward
(line parsing belongs to the excluded ingestion collaborator): reject with no
state change if `measurement > 10`, otherwise append to the window and run one
pipeline pass.  The Bool is whether a detection was emitted this call. -/
def process_measurement (b a : List ℚ) (st : QRSState) (measurement : ℚ) :
    QRSState × Bool :=
  if (10 : ℚ) < measurement then (st, false)
  else
    extract_peaks b a
      { st with
          most_recent_measurements := pushWindow st.most_recent_measurements measurement }

/-- Iterate a step of the engine over a list of inputs, collecting the
per-step detection flags. -/
def runGen {α : Type} (step : QRSState → α → QRSState × Bool) :
    QRSState → List α → QRSState × List Bool
  | st, [] => (st, [])
  | st, x :: xs =>
    let r := step st x
    let rest := runGen step r.1 xs
    (rest.1, r.2 :: rest.2)

/-- The engine run: `process_measurement` on each successive measurement. -/
def runProcess (b a : List ℚ) (st : QRSState) (ms : List ℚ) : QRSState × List Bool :=
  runGen (process_measurement b a) st ms

/-- Source `detect_qrs` iterated over a sequence of per-pass candidate lists
(one invocation per accepted sample). -/
def runDetect (st : QRSState) (ps : List (List (Nat × ℚ))) : QRSState × List Bool :=
  runGen detect_qrs st ps

/-- Whether a call of `process_measurement` reaches the classification step of
`detect_qrs`: the sample is accepted, the counter is past the refractory
period, and the restricted candidate list of this pass is nonempty. -/
def classifiesAt (b a : List ℚ) (st : QRSState) (m : ℚ) : Bool :=
  if (10 : ℚ) < m then false
  else
    decide (refractory_period < st.time_since_last_detected_qrs + 1) &&
      !(passPeaks b a (pushWindow st.most_recent_measurements m)).isEmpty

/-- Modelled from the spec (the check lives in `scipy.signal.butter`, outside
this repository): a digital Butterworth band-pass design is valid iff both
cutoffs lie strictly inside `(0, nyquist)` and `low < high`. -/
def digitalCutoffsValid (low high nyq : ℚ) : Bool :=
  decide (0 < low) && decide (low < nyq) && decide (0 < high) && decide (high < nyq) &&
    decide (low < high)

/-- Modelled from the spec: `bandpass_filter` designs the filter via `butter`
(which fails on cutoffs outside the open unit normalized interval) and then
applies `lfilter`; the transcendental coefficient computation is abstracted as
the coefficient lists `b`, `a`. -/
def bandpass_filter_step (low high signal_freq : ℚ) (b a : List ℚ) (data : List ℚ) :
    Except Unit (List ℚ) :=
  if digitalCutoffsValid low high (signal_freq / 2) then Except.ok (lfilter b a data)
  else Except.error ()

/-- The padded signal of the claim's reading of `findpeaks`, as an index
function: `spacing` virtual samples at each end holding the corresponding
boundary value minus the epsilon. -/
def specPadGet (data : List ℚ) (spacing j : Nat) : ℚ :=
  if j < spacing then data.headD 0 - fp_eps
  else if j < spacing + data.length then data.getD (j - spacing) 0
  else data.getLastD 0 - fp_eps

/-- The claim's peak predicate: in the padded signal, position `i` strictly
dominates every offset `d` in `[1, spacing]` on both sides. -/
def specIsPeak (data : List ℚ) (spacing i : Nat) : Prop :=
  ∀ d ∈ Finset.Icc 1 spacing,
    specPadGet data spacing (spacing + i - d) < specPadGet data spacing (spacing + i) ∧
    specPadGet data spacing (spacing + i + d) < specPadGet data spacing (spacing + i)

instance (data : List ℚ) (spacing i : Nat) : Decidable (specIsPeak data spacing i) :=
  inferInstanceAs (Decidable (∀ d ∈ Finset.Icc 1 spacing, _ ∧ _))

/-! ### Length and pointwise lemmas for the signal stages -/

theorem lfilterAux_length (b aT : List ℚ) (a0 : ℚ) (xs : List ℚ) :
    ∀ (xrev yrev : List ℚ), (lfilterAux b aT a0 xrev yrev xs).length = xs.length := by
  induction xs with
  | nil => intro xrev yrev; rfl
  | cons x xs ih => intro xrev yrev; simp [lfilterAux, ih]

theorem lfilter_length (b a : List ℚ) (x : List ℚ) : (lfilter b a x).length = x.length :=
  lfilterAux_length b a.tail (a.headD 1) x [] []

theorem pushWindow_length (w : List ℚ) (m : ℚ) :
    (pushWindow w m).length = min (w.length + 1) number_of_samples_stored := by
  simp [pushWindow, number_of_samples_stored]
  omega

theorem ediff1d_length (l : List ℚ) : (ediff1d l).length = l.length - 1 := by
  simp [ediff1d]

theorem ediff1d_getD (l : List ℚ) (i : Nat) (h : i + 1 < l.length) :
    (ediff1d l).getD i 0 = l.getD (i + 1) 0 - l.getD i 0 := by
  have h1 : i < (List.zipWith (fun u v => v - u) l l.tail).length := by
    simp [List.length_zipWith]; omega
  have h2 : i < l.length := by omega
  have h3 : i < l.tail.length := by simp [List.length_tail]; omega
  rw [ediff1d, List.getD_eq_getElem _ _ h1, List.getD_eq_getElem _ _ h2,
    List.getD_eq_getElem _ _ h, List.getElem_zipWith, List.getElem_tail]

theorem square_length (l : List ℚ) : (square l).length = l.length := by simp [square]

theorem square_getD (l : List ℚ) (i : Nat) : (square l).getD i 0 = l.getD i 0 ^ 2 := by
  simp only [square, List.getD_eq_getElem?_getD, List.getElem?_map]
  cases l[i]? with
  | none => simp
  | some q => simp

theorem addPointwise_length (xs : List ℚ) :
    ∀ ys : List ℚ, (addPointwise xs ys).length = max xs.length ys.length := by
  induction xs with
  | nil => intro ys; simp [addPointwise]
  | cons x xs ih =>
    intro ys
    cases ys with
    | nil => simp [addPointwise]
    | cons y ys => simp [addPointwise, ih]; omega

theorem addPointwise_getD (xs : List ℚ) :
    ∀ (ys : List ℚ) (k : Nat),
      (addPointwise xs ys).getD k 0 = xs.getD k 0 + ys.getD k 0 := by
  induction xs with
  | nil => intro ys k; simp [addPointwise]
  | cons x xs ih =>
    intro ys k
    cases ys with
    | nil => simp [addPointwise]
    | cons y ys =>
      cases k with
      | zero => simp [addPointwise]
      | succ k => simpa [addPointwise] using ih ys k

theorem getD_map_mul (c : ℚ) (v : List ℚ) (k : Nat) :
    (v.map (fun t => c * t)).getD k 0 = c * v.getD k 0 := by
  simp only [List.getD_eq_getElem?_getD, List.getElem?_map]
  cases v[k]? with
  | none => simp
  | some q => simp

theorem convFull_length (v : List ℚ) (hv : v ≠ []) :
    ∀ as : List ℚ, as ≠ [] → (convFull as v).length = as.length + v.length - 1 := by
  have hv1 : 1 ≤ v.length := List.length_pos.mpr hv
  intro as
  induction as with
  | nil => intro h; exact absurd rfl h
  | cons a as ih =>
    intro _
    cases as with
    | nil => simp [convFull, addPointwise_length]; omega
    | cons a' as' =>
      have h' := ih (List.cons_ne_nil a' as')
      rw [show convFull (a :: a' :: as') v
            = addPointwise (v.map (fun t => a * t)) ((0 : ℚ) :: convFull (a' :: as') v) from rfl,
        addPointwise_length, List.length_map, List.length_cons, h']
      simp only [List.length_cons]
      omega

theorem convFull_getD (v : List ℚ) :
    ∀ (as : List ℚ) (k : Nat),
      (convFull as v).getD k 0 =
        ∑ i ∈ Finset.range as.length,
          if i ≤ k then as.getD i 0 * v.getD (k - i) 0 else 0 := by
  intro as
  induction as with
  | nil => intro k; simp [convFull]
  | cons a as ih =>
    intro k
    rw [convFull, addPointwise_getD, getD_map_mul, List.length_cons, Finset.sum_range_succ']
    have h0 : (if 0 ≤ k then (a :: as).getD 0 0 * v.getD (k - 0) 0 else 0) = a * v.getD k 0 := by
      simp
    rw [h0]
    have hX : ((0:ℚ) :: convFull as v).getD k 0 =
        ∑ i ∈ Finset.range as.length,
          if i + 1 ≤ k then (a :: as).getD (i + 1) 0 * v.getD (k - (i + 1)) 0 else 0 := by
      cases k with
      | zero => simp
      | succ k =>
        have hc : ((0:ℚ) :: convFull as v).getD (k + 1) 0 = (convFull as v).getD k 0 := by
          simp [List.getD_eq_getElem?_getD]
        rw [hc, ih k]
        refine Finset.sum_congr rfl (fun i _ => ?_)
        have hgd : (a :: as).getD (i + 1) 0 = as.getD i 0 := by
          simp [List.getD_eq_getElem?_getD]
        by_cases h : i ≤ k
        · rw [if_pos (by omega : i + 1 ≤ k + 1), if_pos h, hgd, Nat.succ_sub_succ]
        · rw [if_neg (by omega : ¬ i + 1 ≤ k + 1), if_neg h]
    rw [hX]
    ring

/-! ### The peak finder -/

theorem fp_pad_length (data : List ℚ) (s : Nat) :
    (fp_pad data s).length = data.length + 2 * s := by
  simp [fp_pad]
  omega

theorem fp_pad_getD (data : List ℚ) (s j : Nat) (hj : j < data.length + 2 * s) :
    (fp_pad data s).getD j 0 = specPadGet data s j := by
  simp only [fp_pad, specPadGet, List.getD_eq_getElem?_getD]
  by_cases h1 : j < s
  · rw [List.getElem?_append_left (by simpa using h1), List.getElem?_replicate_of_lt h1,
      if_pos h1]
    rfl
  · rw [List.getElem?_append_right (by simpa using h1), if_neg h1]
    simp only [List.length_replicate]
    by_cases h2 : j < s + data.length
    · rw [List.getElem?_append_left (by omega), if_pos h2]
    · rw [List.getElem?_append_right (by omega), if_neg h2,
        List.getElem?_replicate_of_lt (by omega)]
      rfl

theorem fp_slice_length (x : List ℚ) (start n : Nat) (h : start + n ≤ x.length) :
    (fp_slice x start n).length = n := by
  simp [fp_slice]
  omega

theorem fp_slice_getD (x : List ℚ) (start n i : Nat) (hi : i < n) :
    (fp_slice x start n).getD i 0 = x.getD (start + i) 0 := by
  simp only [fp_slice, List.getD_eq_getElem?_getD, List.getElem?_take_of_lt hi,
    List.getElem?_drop]

theorem gtMask_length (xs ys : List ℚ) : (gtMask xs ys).length = min xs.length ys.length := by
  simp [gtMask]

theorem andMask_length (xs ys : List Bool) :
    (andMask xs ys).length = min xs.length ys.length := by
  simp [andMask]

theorem gtMask_getD (xs ys : List ℚ) (i : Nat) (hx : i < xs.length) (hy : i < ys.length) :
    (gtMask xs ys).getD i false = decide (ys.getD i 0 < xs.getD i 0) := by
  simp [gtMask, List.getD_eq_getElem?_getD, List.getElem?_zipWith,
    List.getElem?_eq_getElem hx, List.getElem?_eq_getElem hy,
    List.getD_eq_getElem _ _ hx, List.getD_eq_getElem _ _ hy]

theorem andMask_getD (xs ys : List Bool) (i : Nat) (hx : i < xs.length) (hy : i < ys.length) :
    (andMask xs ys).getD i false = (xs.getD i false && ys.getD i false) := by
  simp [andMask, List.getD_eq_getElem?_getD, List.getElem?_zipWith,
    List.getElem?_eq_getElem hx, List.getElem?_eq_getElem hy]

theorem fp_step_length (x : List ℚ) (spacing n : Nat) (pc : List Bool) (s : Nat)
    (hs : s < spacing) (hx : x.length = n + 2 * spacing) (hpc : pc.length = n) :
    (fp_step x spacing n pc s).length = n := by
  rw [fp_step, andMask_length, andMask_length, gtMask_length, gtMask_length,
    fp_slice_length x spacing n (by omega), fp_slice_length x (spacing - s - 1) n (by omega),
    fp_slice_length x (spacing + s + 1) n (by omega), hpc]
  omega

theorem fp_step_getD (x : List ℚ) (spacing n : Nat) (pc : List Bool) (s : Nat)
    (hs : s < spacing) (hx : x.length = n + 2 * spacing) (hpc : pc.length = n)
    (i : Nat) (hi : i < n) :
    (fp_step x spacing n pc s).getD i false =
      (pc.getD i false &&
        (decide (x.getD (spacing - s - 1 + i) 0 < x.getD (spacing + i) 0) &&
         decide (x.getD (spacing + s + 1 + i) 0 < x.getD (spacing + i) 0))) := by
  have lb : (fp_slice x (spacing - s - 1) n).length = n := fp_slice_length _ _ _ (by omega)
  have lc : (fp_slice x spacing n).length = n := fp_slice_length _ _ _ (by omega)
  have la : (fp_slice x (spacing + s + 1) n).length = n := fp_slice_length _ _ _ (by omega)
  rw [fp_step, andMask_getD _ _ i (by omega)
        (by rw [andMask_length, gtMask_length, gtMask_length, lb, lc, la]; omega),
    andMask_getD _ _ i (by rw [gtMask_length, lb, lc]; omega)
        (by rw [gtMask_length, lc, la]; omega),
    gtMask_getD _ _ i (by omega) (by omega), gtMask_getD _ _ i (by omega) (by omega),
    fp_slice_getD x spacing n i hi, fp_slice_getD x (spacing - s - 1) n i hi,
    fp_slice_getD x (spacing + s + 1) n i hi]

theorem fp_fold_aux (x : List ℚ) (spacing n : Nat) (hx : x.length = n + 2 * spacing)
    (ss : List Nat) :
    ∀ acc : List Bool, acc.length = n → (∀ s ∈ ss, s < spacing) →
      (ss.foldl (fp_step x spacing n) acc).length = n ∧
      ∀ i, i < n →
        ((ss.foldl (fp_step x spacing n) acc).getD i false = true ↔
          (acc.getD i false = true ∧
            ∀ s ∈ ss,
              x.getD (spacing - s - 1 + i) 0 < x.getD (spacing + i) 0 ∧
              x.getD (spacing + s + 1 + i) 0 < x.getD (spacing + i) 0)) := by
  induction ss with
  | nil => intro acc hacc _; exact ⟨hacc, fun i _ => by simp⟩
  | cons s ss ih =>
    intro acc hacc hmem
    have hs : s < spacing := hmem s (List.mem_cons_self s ss)
    have hstep : (fp_step x spacing n acc s).length = n :=
      fp_step_length x spacing n acc s hs hx hacc
    obtain ⟨hlen, hiff⟩ := ih (fp_step x spacing n acc s) hstep
      (fun s' hs' => hmem s' (List.mem_cons_of_mem s hs'))
    refine ⟨by simpa [List.foldl_cons] using hlen, fun i hi => ?_⟩
    rw [List.foldl_cons, hiff i hi, fp_step_getD x spacing n acc s hs hx hacc i hi]
    constructor
    · rintro ⟨hstep1, hrest⟩
      rw [Bool.and_eq_true, Bool.and_eq_true, decide_eq_true_iff, decide_eq_true_iff] at hstep1
      exact ⟨hstep1.1, fun s' hs' => by
        rcases List.mem_cons.1 hs' with h | h
        · subst h; exact hstep1.2
        · exact hrest s' h⟩
    · rintro ⟨hacc1, hall⟩
      have h1 := hall s (List.mem_cons_self s ss)
      refine ⟨?_, fun s' hs' => hall s' (List.mem_cons_of_mem s hs')⟩
      rw [Bool.and_eq_true, Bool.and_eq_true, decide_eq_true_iff, decide_eq_true_iff]
      exact ⟨hacc1, h1.1, h1.2⟩

theorem fp_fold_length (x : List ℚ) (spacing n : Nat) (hx : x.length = n + 2 * spacing) :
    (fp_fold x spacing n).length = n :=
  (fp_fold_aux x spacing n hx (List.range spacing) (List.replicate n true)
    (List.length_replicate n true) (fun _ h => List.mem_range.1 h)).1

theorem fp_fold_getD (x : List ℚ) (spacing n : Nat) (hx : x.length = n + 2 * spacing)
    (i : Nat) (hi : i < n) :
    ((fp_fold x spacing n).getD i false = true ↔
      ∀ s, s < spacing →
        x.getD (spacing - s - 1 + i) 0 < x.getD (spacing + i) 0 ∧
        x.getD (spacing + s + 1 + i) 0 < x.getD (spacing + i) 0) := by
  have h := (fp_fold_aux x spacing n hx (List.range spacing) (List.replicate n true)
    (List.length_replicate n true) (fun _ h => List.mem_range.1 h)).2 i hi
  rw [fp_fold, h]
  have hrep : (List.replicate n true).getD i false = true := by
    simp [List.getD_eq_getElem?_getD, List.getElem?_replicate_of_lt hi]
  rw [hrep]
  simp [List.mem_range]

theorem candidate_iff_specIsPeak (data : List ℚ) (s i : Nat) (hi : i < data.length) :
    ((fp_fold (fp_pad data s) s data.length).getD i false = true ↔ specIsPeak data s i) := by
  rw [fp_fold_getD (fp_pad data s) s data.length (fp_pad_length data s) i hi, specIsPeak]
  constructor
  · intro h d hd
    obtain ⟨hd1, hd2⟩ := Finset.mem_Icc.1 hd
    have h' := h (d - 1) (by omega)
    have e1 : s - (d - 1) - 1 + i = s + i - d := by omega
    have e2 : s + (d - 1) + 1 + i = s + i + d := by omega
    rw [e1, e2] at h'
    rw [← fp_pad_getD data s (s + i - d) (by omega), ← fp_pad_getD data s (s + i) (by omega),
      ← fp_pad_getD data s (s + i + d) (by omega)]
    exact h'
  · intro h s' hs'
    have h' := h (s' + 1) (Finset.mem_Icc.2 (by omega))
    rw [← fp_pad_getD data s (s + i - (s' + 1)) (by omega),
      ← fp_pad_getD data s (s + i) (by omega),
      ← fp_pad_getD data s (s + i + (s' + 1)) (by omega)] at h'
    have e1 : s - s' - 1 + i = s + i - (s' + 1) := by omega
    have e2 : s + s' + 1 + i = s + i + (s' + 1) := by omega
    rw [e1, e2]
    exact h'

theorem candidate_eq_decide (data : List ℚ) (s i : Nat) (hi : i < data.length) :
    (fp_fold (fp_pad data s) s data.length).getD i false = decide (specIsPeak data s i) := by
  by_cases h : specIsPeak data s i
  · rw [decide_eq_true h, (candidate_iff_specIsPeak data s i hi).2 h]
  · rw [decide_eq_false h]
    rcases Bool.eq_false_or_eq_true ((fp_fold (fp_pad data s) s data.length).getD i false) with
      hb | hb
    · exact absurd ((candidate_iff_specIsPeak data s i hi).1 hb) h
    · exact hb

theorem findpeaks_eq_filter (data : List ℚ) (s : Nat) (L : ℚ) :
    findpeaks data s L =
      (List.range data.length).filter
        (fun i => decide (specIsPeak data s i) && decide (L < data.getD i 0)) := by
  rw [findpeaks, List.filter_filter]
  refine List.filter_congr (fun i hi => ?_)
  have hi' : i < data.length := List.mem_range.1 hi
  rw [candidate_eq_decide data s i hi', Bool.and_comm]

theorem findpeaks_sorted (data : List ℚ) (s : Nat) (L : ℚ) :
    List.Pairwise (· < ·) (findpeaks data s L) := by
  rw [findpeaks_eq_filter]
  exact (List.pairwise_lt_range data.length).filter _

theorem findpeaks_mem_limit (data : List ℚ) (s : Nat) (L : ℚ) (i : Nat)
    (h : i ∈ findpeaks data s L) : L < data.getD i 0 := by
  rw [findpeaks_eq_filter] at h
  have := (List.mem_filter.1 h).2
  simp only [Bool.and_eq_true, decide_eq_true_iff] at this
  exact this.2

/-! ### The threshold engine -/

theorem getLast?_mem' {α : Type} : ∀ {l : List α} {p : α}, l.getLast? = some p → p ∈ l := by
  intro l
  induction l with
  | nil => intro p h; simp at h
  | cons a l ih =>
    intro p h
    cases l with
    | nil =>
      simp [List.getLast?] at h
      simp [h]
    | cons b l =>
      rw [List.getLast?_cons_cons] at h
      exact List.mem_cons_of_mem a (ih h)

theorem getLast_fst_max : ∀ (l : List (Nat × ℚ)) (idx : Nat) (v : ℚ),
    (l.map Prod.fst).Pairwise (· < ·) → l.getLast? = some (idx, v) → ∀ p ∈ l, p.1 ≤ idx := by
  intro l
  induction l with
  | nil => intro idx v _ h; simp at h
  | cons q l ih =>
    intro idx v hpair hlast p hp
    cases l with
    | nil =>
      simp [List.getLast?] at hlast
      rcases List.mem_singleton.1 hp with rfl
      simp [hlast]
    | cons q' l' =>
      rw [List.getLast?_cons_cons] at hlast
      rw [List.map_cons, List.pairwise_cons] at hpair
      rcases List.mem_cons.1 hp with rfl | hp'
      · have hmem : (idx, v) ∈ q' :: l' := getLast?_mem' hlast
        have : p.1 < idx := hpair.1 idx (List.mem_map_of_mem Prod.fst hmem)
        omega
      · exact ih idx v hpair.2 hlast p hp'

set_option maxRecDepth 4000 in
/-- Per-call contract of `detect_qrs` on the counter: the counter is first
incremented; a detection resets it to `0` and can happen only past the
refractory period; otherwise the call leaves it incremented. -/
theorem detect_qrs_step (st : QRSState) (ps : List (Nat × ℚ)) :
    ((detect_qrs st ps).2 = true →
      (detect_qrs st ps).1.time_since_last_detected_qrs = 0 ∧
      refractory_period < st.time_since_last_detected_qrs + 1) ∧
    ((detect_qrs st ps).2 = false →
      (detect_qrs st ps).1.time_since_last_detected_qrs =
        st.time_since_last_detected_qrs + 1) := by
  by_cases h1 : refractory_period < st.time_since_last_detected_qrs + 1
  · cases hps : ps.getLast? with
    | none => simp [detect_qrs, h1, hps]
    | some p =>
      obtain ⟨idx, v⟩ := p
      by_cases h2 : st.threshold_value < v
      · simp [detect_qrs, h1, hps, h2]
      · simp [detect_qrs, h1, hps, h2]
  · simp [detect_qrs, h1]

set_option maxRecDepth 4000 in
/-- Per-call contract of `process_measurement` on the counter, for an accepted
sample. -/
theorem process_measurement_step (b a : List ℚ) (st : QRSState) (m : ℚ) (hm : m ≤ 10) :
    ((process_measurement b a st m).2 = true →
      (process_measurement b a st m).1.time_since_last_detected_qrs = 0 ∧
      refractory_period < st.time_since_last_detected_qrs + 1) ∧
    ((process_measurement b a st m).2 = false →
      (process_measurement b a st m).1.time_since_last_detected_qrs =
        st.time_since_last_detected_qrs + 1) := by
  have hnot : ¬ ((10 : ℚ) < m) := not_lt.mpr hm
  simp only [process_measurement, if_neg hnot, extract_peaks]
  exact detect_qrs_step _ _

/-- The refractory-gap invariant for any iterated step obeying the counter
contract: a detection at position `j` forces the counter to have counted at
least past the refractory period since the start or since any earlier
detection. -/
theorem runGen_gap {α : Type} (step : QRSState → α → QRSState × Bool) (good : α → Prop)
    (hstep : ∀ st x, good x →
      ((step st x).2 = true →
        (step st x).1.time_since_last_detected_qrs = 0 ∧
        refractory_period < st.time_since_last_detected_qrs + 1) ∧
      ((step st x).2 = false →
        (step st x).1.time_since_last_detected_qrs =
          st.time_since_last_detected_qrs + 1)) :
    ∀ (xs : List α) (st : QRSState) (j : Nat), (∀ x ∈ xs, good x) →
      (runGen step st xs).2.getD j false = true →
      refractory_period < st.time_since_last_detected_qrs + j + 1 ∧
      ∀ i, i < j → (runGen step st xs).2.getD i false = true → refractory_period < j - i := by
  intro xs
  induction xs with
  | nil => intro st j _ hj; simp [runGen] at hj
  | cons x xs ih =>
    intro st j hgood hj
    have hg : good x := hgood x (List.mem_cons_self x xs)
    have hgood' : ∀ y ∈ xs, good y := fun y hy => hgood y (List.mem_cons_of_mem x hy)
    rcases j with _ | j'
    · have : (step st x).2 = true := by simpa [runGen] using hj
      have h := (hstep st x hg).1 this
      exact ⟨by omega, fun i hi => by omega⟩
    · have hj' : (runGen step (step st x).1 xs).2.getD j' false = true := by
        simpa [runGen] using hj
      obtain ⟨ihtime, ihgap⟩ := ih (step st x).1 j' hgood' hj'
      rcases Bool.eq_false_or_eq_true (step st x).2 with hf | hf
      · have htime : (step st x).1.time_since_last_detected_qrs = 0 := ((hstep st x hg).1 hf).1
        rw [htime] at ihtime
        refine ⟨by omega, fun i hi hflag => ?_⟩
        rcases i with _ | i'
        · omega
        · have hflag' : (runGen step (step st x).1 xs).2.getD i' false = true := by
            simpa [runGen] using hflag
          have := ihgap i' (by omega) hflag'
          omega
      · have htime : (step st x).1.time_since_last_detected_qrs =
            st.time_since_last_detected_qrs + 1 := (hstep st x hg).2 hf
        refine ⟨by omega, fun i hi hflag => ?_⟩
        rcases i with _ | i'
        · have : (step st x).2 = true := by simpa [runGen] using hflag
          rw [this] at hf
          exact absurd hf (by simp)
        · have hflag' : (runGen step (step st x).1 xs).2.getD i' false = true := by
            simpa [runGen] using hflag
          have := ihgap i' (by omega) hflag'
          omega

set_option maxRecDepth 4000 in
theorem detect_qrs_window (st : QRSState) (ps : List (Nat × ℚ)) :
    (detect_qrs st ps).1.most_recent_measurements = st.most_recent_measurements := by
  by_cases h1 : refractory_period < st.time_since_last_detected_qrs + 1
  · cases hps : ps.getLast? with
    | none => simp [detect_qrs, h1, hps]
    | some p =>
      obtain ⟨idx, v⟩ := p
      by_cases h2 : st.threshold_value < v
      · simp [detect_qrs, h1, hps, h2]
      · simp [detect_qrs, h1, hps, h2]
  · simp [detect_qrs, h1]

set_option maxRecDepth 4000 in
theorem runProcess_window_inv (b a : List ℚ) (ms : List ℚ) :
    ∀ st : QRSState,
      1 ≤ st.most_recent_measurements.length →
      st.most_recent_measurements.length ≤ number_of_samples_stored →
      1 ≤ (runProcess b a st ms).1.most_recent_measurements.length ∧
      (runProcess b a st ms).1.most_recent_measurements.length ≤ number_of_samples_stored := by
  induction ms with
  | nil => intro st h1 h2; exact ⟨h1, h2⟩
  | cons m ms ih =>
    intro st h1 h2
    have hstep : 1 ≤ (process_measurement b a st m).1.most_recent_measurements.length ∧
        (process_measurement b a st m).1.most_recent_measurements.length ≤
          number_of_samples_stored := by
      by_cases hm : (10 : ℚ) < m
      · simp only [process_measurement, if_pos hm]
        exact ⟨h1, h2⟩
      · simp only [process_measurement, if_neg hm, extract_peaks, detect_qrs_window]
        rw [pushWindow_length]
        have e : number_of_samples_stored = 200 := rfl
        omega
    have := ih (process_measurement b a st m).1 hstep.1 hstep.2
    simpa [runProcess, runGen] using this

/-! ### The claims -/

/-- Claim C3 counterexample.  The claim says values with `|value| > 10` are
rejected with no state change; the code (`process_measurement`) only checks
`measurement > 10`, so the sample `-10.0001` is accepted: the window is
mutated and a pipeline pass runs. -/
theorem ingest_ceiling_cex :
    ¬ (∀ m : ℚ, 10 < |m| →
        process_measurement [1] [1] initState m = (initState, false)) := by
  intro h
  have h2 := h (-(100001/10000)) (by rw [abs_of_neg (by norm_num)]; norm_num)
  exact absurd h2 (by with_unfolding_all decide)

/-- Claim C3 (amended).  Ingestion rejects a sample with no state change (and no
pipeline pass) exactly when `value > 10`; the physiological-ceiling guard is
one-sided, so `10.0001` is rejected but `-10.0001` is accepted. -/
theorem ingest_ceiling_spec (b a : List ℚ) (st : QRSState) (m : ℚ) (h : 10 < m) :
    process_measurement b a st m = (st, false) := by
  rw [process_measurement, if_pos h]

/-- Witness for `ingest_ceiling_spec` at the boundary value `10.0001`. -/
theorem ingest_ceiling_spec_witness :
    (10 : ℚ) < 100001/10000 ∧
    process_measurement [1] [1] initState (100001/10000) = (initState, false) :=
  ⟨by norm_num, ingest_ceiling_spec [1] [1] initState (100001/10000) (by norm_num)⟩

/-- Claim C8 counterexample.  The claim says invalid filter cutoffs make
construction fail before any sample is ingested.  In the code `__init__`
performs no validation (and the fixed low cutoff `0.0` is already outside
`(0, nyquist)` for every sample rate), so construction succeeds at
`signal_freq = 255` even though the cutoffs are invalid. -/
theorem construct_validation_cex :
    ¬ (∀ freq : ℚ, digitalCutoffsValid filter_lowcut filter_highcut (freq / 2) = false →
        ∃ e, construct freq = Except.error e) := by
  intro h
  obtain ⟨e, he⟩ := h 255 (by decide)
  simp [construct] at he

/-- Claim C8 (amended).  Construction never fails: `__init__` performs no
cutoff validation.  The fixed cutoffs (low `0.0`, high `15.0`) are invalid
relative to every sample rate (the low cutoff is outside `(0, nyquist)`), and
the failure surfaces only when `bandpass_filter` designs the filter, i.e.
during a pipeline pass, after a sample was ingested. -/
theorem construct_validation_spec (freq : ℚ) (b a data : List ℚ) :
    construct freq = Except.ok initState ∧
    digitalCutoffsValid filter_lowcut filter_highcut (freq / 2) = false ∧
    bandpass_filter_step filter_lowcut filter_highcut freq b a data = Except.error () := by
  have hv : digitalCutoffsValid filter_lowcut filter_highcut (freq / 2) = false := by
    simp [digitalCutoffsValid, filter_lowcut]
  exact ⟨rfl, hv, by simp [bandpass_filter_step, hv]⟩

/-- Claim C9.  Determinism: the engine is a pure function of its configuration
(represented by the designed filter coefficients) and the ordered input
sequence; two runs with identical configuration and inputs emit identical
detection sequences.  The code's only potential nondeterminism sources
(`serial`, the unused `import random`) are outside the detection core. -/
theorem determinism_spec (b1 a1 b2 a2 ms1 ms2 : List ℚ)
    (hb : b1 = b2) (ha : a1 = a2) (hm : ms1 = ms2) :
    (runProcess b1 a1 initState ms1).2 = (runProcess b2 a2 initState ms2).2 := by
  subst hb; subst ha; subst hm; rfl

/-- Witness for `determinism_spec` on a concrete two-sample run. -/
theorem determinism_spec_witness :
    (runProcess [1] [1] initState [2, 3]).2 = (runProcess [1] [1] initState [2, 3]).2 :=
  determinism_spec [1] [1] [1] [1] [2, 3] [2, 3] rfl rfl rfl

/-- Claim C10.  The window starts as the seed `[0]`, every push keeps its length
in `[1, 200]` (append below capacity, evict-oldest at capacity), the window of
every reachable state stays in `[1, 200]`, and the integrated signal handed to
the peak finder in a pass over a nonempty window is nonempty, so `findpeaks`'s
boundary accesses `data[0]`/`data[-1]` are in range. -/
theorem window_invariant_spec (b a : List ℚ) (w : List ℚ) (m : ℚ) (ms : List ℚ)
    (hw : 1 ≤ w.length) :
    initState.most_recent_measurements = [0] ∧
    1 ≤ (pushWindow w m).length ∧
    (pushWindow w m).length ≤ number_of_samples_stored ∧
    (w.length < number_of_samples_stored → pushWindow w m = w ++ [m]) ∧
    (w.length = number_of_samples_stored → pushWindow w m = w.tail ++ [m]) ∧
    1 ≤ (runProcess b a initState ms).1.most_recent_measurements.length ∧
    (runProcess b a initState ms).1.most_recent_measurements.length ≤
      number_of_samples_stored ∧
    integratedSignal b a (pushWindow w m) ≠ [] := by
  have e : number_of_samples_stored = 200 := rfl
  have hrun := runProcess_window_inv b a ms initState (by simp [initState]) (by simp [initState, e])
  refine ⟨rfl, ?_, ?_, ?_, ?_, hrun.1, hrun.2, ?_⟩
  · rw [pushWindow_length]; omega
  · rw [pushWindow_length]; omega
  · intro hlt
    rw [pushWindow, show w.length + 1 - number_of_samples_stored = 0 from by omega,
      List.drop_zero]
  · intro heq
    rw [pushWindow, show w.length + 1 - number_of_samples_stored = 1 from by omega,
      List.drop_append_of_le_length (by omega), List.drop_one]
  · apply List.ne_nil_of_length_pos
    have h1 : (lfilter b a (pushWindow w m)).length = (pushWindow w m).length :=
      lfilter_length b a _
    have h2 : 2 ≤ (pushWindow w m).length := by rw [pushWindow_length]; omega
    have hsq : square (ediff1d (lfilter b a (pushWindow w m))) ≠ [] := by
      apply List.ne_nil_of_length_pos
      rw [square_length, ediff1d_length]
      omega
    rw [integratedSignal,
      convFull_length (onesKernel integration_window) (by simp [onesKernel, integration_window])
        _ hsq]
    simp [onesKernel, integration_window]

/-- Witness for `window_invariant_spec`: a push below capacity appends. -/
theorem window_invariant_spec_witness :
    pushWindow [0] 5 = [0] ++ [5] :=
  (window_invariant_spec [1] [1] [0] 5 [] (by decide)).2.2.2.1 (by decide)

/-- Claim C2.  Refractory gating: per accepted sample the counter is incremented
exactly once (a detection then resets it to `0`), a detection requires the
incremented counter to exceed `refractory_period`, and consequently in any run
from a fresh engine two detections at positions `i < j` have at least
`refractory_period` accepted samples strictly between them — both for the
iterated `detect_qrs` state machine (first conjunct, on the witnessed trace)
and for full `process_measurement` runs over accepted samples (last conjunct). -/
theorem refractory_gap_spec (ps : List (List (Nat × ℚ))) (i j : Nat) (hij : i < j)
    (hi : (runDetect initState ps).2.getD i false = true)
    (hj : (runDetect initState ps).2.getD j false = true) :
    refractory_period ≤ j - i - 1 ∧
    (∀ (b a : List ℚ) (st : QRSState) (m : ℚ), m ≤ 10 →
      ((process_measurement b a st m).2 = true →
        (process_measurement b a st m).1.time_since_last_detected_qrs = 0 ∧
        refractory_period < st.time_since_last_detected_qrs + 1) ∧
      ((process_measurement b a st m).2 = false →
        (process_measurement b a st m).1.time_since_last_detected_qrs =
          st.time_since_last_detected_qrs + 1)) ∧
    (∀ (b a : List ℚ) (ms : List ℚ), (∀ m ∈ ms, m ≤ 10) →
      ∀ i' j', i' < j' →
        (runProcess b a initState ms).2.getD i' false = true →
        (runProcess b a initState ms).2.getD j' false = true →
        refractory_period ≤ j' - i' - 1) := by
  refine ⟨?_, fun b a st m hm => process_measurement_step b a st m hm,
    fun b a ms hms i' j' hij' hi' hj' => ?_⟩
  · have h := runGen_gap detect_qrs (fun _ => True)
      (fun st x _ => detect_qrs_step st x) ps initState j (fun _ _ => trivial) hj
    have := h.2 i hij hi
    omega
  · have h := runGen_gap (process_measurement b a) (fun m => m ≤ 10)
      (fun st x hx => process_measurement_step b a st x hx) ms initState j' hms hj'
    have := h.2 i' hij' hi'
    omega

set_option maxRecDepth 40000 in
/-- Witness for `refractory_gap_spec`: a trace with persistent candidates of
value `1` detects at steps 121 and 242 (positions 120 and 241), i.e. with
exactly `refractory_period` samples strictly between. -/
theorem refractory_gap_spec_witness :
    refractory_period ≤ 241 - 120 - 1 :=
  (refractory_gap_spec (List.replicate 242 [((170 : Nat), (1 : ℚ))]) 120 241 (by decide)
    (by with_unfolding_all decide) (by with_unfolding_all decide)).1

set_option maxRecDepth 4000 in
/-- Claim C1.  In the ELIGIBLE state (incremented counter strictly above
`refractory_period`) with a nonempty candidate list, `detect_qrs` evaluates the
candidate with the largest index (the last of the ascending list), emits a
detection exactly when its value strictly exceeds `threshold_value` — then
`signal_peak_value := 0.125 * v + 0.875 * signal_peak_value` and the counter
resets to `0` — and otherwise updates
`noise_peak_value := 0.125 * v + 0.875 * noise_peak_value`; after either branch
`threshold_value := noise_peak_value + 0.25 * (signal_peak_value - noise_peak_value)`
with the just-updated levels.  The resulting state is given in full, so no
other field changes (the counter in the NOISE branch keeps the incremented
value that made the pass eligible). -/
theorem detect_qrs_eligible_spec (st : QRSState) (peaks : List (Nat × ℚ)) (idx : Nat) (v : ℚ)
    (helig : refractory_period < st.time_since_last_detected_qrs + 1)
    (hlast : peaks.getLast? = some (idx, v))
    (hsorted : (peaks.map Prod.fst).Pairwise (· < ·)) :
    (∀ p ∈ peaks, p.1 ≤ idx) ∧
    detect_qrs st peaks =
      (if st.threshold_value < v then
        (⟨st.most_recent_measurements, 0,
          1/8 * v + 7/8 * st.signal_peak_value,
          st.noise_peak_value,
          st.noise_peak_value +
            1/4 * ((1/8 * v + 7/8 * st.signal_peak_value) - st.noise_peak_value)⟩, true)
      else
        (⟨st.most_recent_measurements, st.time_since_last_detected_qrs + 1,
          st.signal_peak_value,
          1/8 * v + 7/8 * st.noise_peak_value,
          (1/8 * v + 7/8 * st.noise_peak_value) +
            1/4 * (st.signal_peak_value - (1/8 * v + 7/8 * st.noise_peak_value))⟩, false)) := by
  refine ⟨getLast_fst_max peaks idx v hsorted hlast, ?_⟩
  simp only [detect_qrs, hlast]
  rw [if_pos helig]
  split_ifs with h2
  · simp only [Prod.mk.injEq, QRSState.mk.injEq, signal_peak_filtering_factor,
      signal_noise_diff_weight]
    norm_num
  · simp only [Prod.mk.injEq, QRSState.mk.injEq, noise_peak_filtering_factor,
      signal_noise_diff_weight]
    norm_num

/-- Witness for `detect_qrs_eligible_spec` on a concrete eligible state with a
single candidate of value `1`. -/
theorem detect_qrs_eligible_spec_witness :
    (∀ p ∈ [((170 : Nat), (1 : ℚ))], p.1 ≤ 170) ∧
    detect_qrs ⟨[0], 120, 0, 0, 0⟩ [((170 : Nat), (1 : ℚ))] =
      (if (0 : ℚ) < 1 then
        (⟨[0], 0, 1/8 * 1 + 7/8 * 0, 0, 0 + 1/4 * ((1/8 * 1 + 7/8 * 0) - 0)⟩, true)
      else
        (⟨[0], 120 + 1, 0, 1/8 * 1 + 7/8 * 0,
          (1/8 * 1 + 7/8 * 0) + 1/4 * (0 - (1/8 * 1 + 7/8 * 0))⟩, false)) :=
  detect_qrs_eligible_spec ⟨[0], 120, 0, 0, 0⟩ [((170 : Nat), (1 : ℚ))] 170 1 (by decide)
    rfl (by simp)

/-- Claim C4.  The function `findpeaks` returns, in strictly ascending order, exactly the
indices `i` whose padded value strictly dominates the padded values at every
offset `d ∈ [1, spacing]` on both sides (so plateaus are never peaks) and whose
original value strictly exceeds the limit. -/
theorem findpeaks_spec (data : List ℚ) (s : Nat) (L : ℚ) (hne : data ≠ []) (hs : 1 ≤ s) :
    findpeaks data s L =
      (List.range data.length).filter
        (fun i => decide (specIsPeak data s i) && decide (L < data.getD i 0)) ∧
    List.Pairwise (· < ·) (findpeaks data s L) :=
  ⟨findpeaks_eq_filter data s L, findpeaks_sorted data s L⟩

/-- Witness for `findpeaks_spec` on a three-sample signal with one peak. -/
theorem findpeaks_spec_witness :
    findpeaks [0, 1, 0] 1 0 =
      (List.range ([(0 : ℚ), 1, 0].length)).filter
        (fun i => decide (specIsPeak [0, 1, 0] 1 i) && decide ((0 : ℚ) < [(0 : ℚ), 1, 0].getD i 0)) ∧
    List.Pairwise (· < ·) (findpeaks [0, 1, 0] 1 0) :=
  findpeaks_spec [0, 1, 0] 1 0 (by simp) (by decide)

set_option maxRecDepth 100000 in
/-- Claim C5 counterexample.  The claim says the caller keeps exactly the
candidates within the most recent `detection_window` (40) samples of the
integrated signal's tail.  The code keeps `index > 200 - 40 = 160`, a cutoff
relative to the window capacity, not to the integrated signal (length 213 for
a full window): on a window holding a step pattern with an integrated-signal
peak at index 165, the code retains the peak while the claim's rule (cutoff
`213 - 40 = 173`) would discard it. -/
theorem restrict_window_cex :
    restrictPeaks (findpeaks (integratedSignal [1] [1]
        (List.replicate 152 0 ++ (List.replicate 14 1 ++ List.replicate 34 2)))
      findpeaks_spacing findpeaks_limit) ≠
    (findpeaks (integratedSignal [1] [1]
        (List.replicate 152 0 ++ (List.replicate 14 1 ++ List.replicate 34 2)))
      findpeaks_spacing findpeaks_limit).filter
      (fun i => decide ((integratedSignal [1] [1]
        (List.replicate 152 0 ++ (List.replicate 14 1 ++ List.replicate 34 2))).length
          - detection_window ≤ i)) := by
  with_unfolding_all decide

/-- Claim C5 (amended).  The caller retains exactly the candidates with index
strictly greater than `number_of_samples_stored - detection_window = 160` — a
cutoff relative to the window capacity.  For a full window the integrated
signal has length `200 + 15 - 2 = 213`, so this keeps the most recent `52`
indices of the integrated signal, not `40`. -/
theorem restrict_window_spec (b a : List ℚ) (w : List ℚ)
    (hw : w.length = number_of_samples_stored) (i : Nat) :
    (integratedSignal b a w).length = number_of_samples_stored + integration_window - 2 ∧
    (i ∈ restrictPeaks (findpeaks (integratedSignal b a w) findpeaks_spacing findpeaks_limit) ↔
      (i ∈ findpeaks (integratedSignal b a w) findpeaks_spacing findpeaks_limit ∧
        number_of_samples_stored - detection_window < i)) := by
  constructor
  · have h1 : (lfilter b a w).length = number_of_samples_stored := by
      rw [lfilter_length, hw]
    have h3 : (square (ediff1d (lfilter b a w))).length = number_of_samples_stored - 1 := by
      rw [square_length, ediff1d_length, h1]
    have hsq : square (ediff1d (lfilter b a w)) ≠ [] := by
      apply List.ne_nil_of_length_pos
      rw [h3]
      norm_num [number_of_samples_stored]
    rw [integratedSignal,
      convFull_length (onesKernel integration_window)
        (by simp [onesKernel, integration_window]) _ hsq, h3]
    simp [onesKernel, number_of_samples_stored, integration_window]
  · rw [restrictPeaks, List.mem_filter, decide_eq_true_iff]

set_option maxRecDepth 10000 in
/-- Witness for `restrict_window_spec`: the integrated length of a pass over a
full window is `213`. -/
theorem restrict_window_spec_witness :
    (integratedSignal [1] [1] (List.replicate 200 0)).length =
      number_of_samples_stored + integration_window - 2 :=
  (restrict_window_spec [1] [1] (List.replicate 200 0) (by simp [number_of_samples_stored])
    165).1

theorem onesKernel_getD (n j : Nat) : (onesKernel n).getD j 0 = if j < n then 1 else 0 := by
  rw [onesKernel, List.getD_eq_getElem?_getD, List.getElem?_replicate]
  by_cases h : j < n
  · simp [h]
  · simp [h]

/-- Claim C6.  In every pipeline pass (window = a push onto a nonempty window,
hence length ≥ 2, with the band-pass filter preserving length): the derivative
is `out[i] = filtered[i+1] - filtered[i]` with length `len - 1`; the square is
elementwise with the same length; and the integration is the full convolution
with the unit kernel of length `integration_window = 15`, of length
`len(squared) + 15 - 1`, with `out[k]` the sum of the `squared[i]` for
`k - i ∈ [0, 14]` (the boundary taper at both ends). -/
theorem stages_spec (b a : List ℚ) (w : List ℚ) (m : ℚ) (hw : 1 ≤ w.length) :
    (lfilter b a (pushWindow w m)).length = (pushWindow w m).length ∧
    2 ≤ (lfilter b a (pushWindow w m)).length ∧
    (ediff1d (lfilter b a (pushWindow w m))).length =
      (lfilter b a (pushWindow w m)).length - 1 ∧
    (∀ i, i + 1 < (lfilter b a (pushWindow w m)).length →
      (ediff1d (lfilter b a (pushWindow w m))).getD i 0 =
        (lfilter b a (pushWindow w m)).getD (i + 1) 0 -
          (lfilter b a (pushWindow w m)).getD i 0) ∧
    (∀ x : List ℚ, (square x).length = x.length ∧
      ∀ i, (square x).getD i 0 = x.getD i 0 ^ 2) ∧
    (integratedSignal b a (pushWindow w m)).length =
      (square (ediff1d (lfilter b a (pushWindow w m)))).length + integration_window - 1 ∧
    (∀ k, (integratedSignal b a (pushWindow w m)).getD k 0 =
      ∑ idx ∈ Finset.range (square (ediff1d (lfilter b a (pushWindow w m)))).length,
        if idx ≤ k ∧ k - idx < integration_window
        then (square (ediff1d (lfilter b a (pushWindow w m)))).getD idx 0 else 0) := by
  have e : number_of_samples_stored = 200 := rfl
  have hlen : (lfilter b a (pushWindow w m)).length = (pushWindow w m).length :=
    lfilter_length b a _
  have hlen2 : 2 ≤ (lfilter b a (pushWindow w m)).length := by
    rw [hlen, pushWindow_length]; omega
  have hsq : square (ediff1d (lfilter b a (pushWindow w m))) ≠ [] := by
    apply List.ne_nil_of_length_pos
    rw [square_length, ediff1d_length]
    omega
  refine ⟨hlen, hlen2, ediff1d_length _, fun i hi => ediff1d_getD _ i hi,
    fun x => ⟨square_length x, fun i => square_getD x i⟩, ?_, fun k => ?_⟩
  · rw [integratedSignal,
      convFull_length (onesKernel integration_window)
        (by simp [onesKernel, integration_window]) _ hsq]
    simp [onesKernel]
  · rw [integratedSignal, convFull_getD]
    refine Finset.sum_congr rfl (fun idx _ => ?_)
    rw [onesKernel_getD]
    by_cases h1 : idx ≤ k
    · by_cases h2 : k - idx < integration_window
      · rw [if_pos h1, if_pos h2, if_pos ⟨h1, h2⟩, mul_one]
      · rw [if_pos h1, if_neg h2, if_neg (fun hcon => h2 hcon.2), mul_zero]
    · rw [if_neg h1, if_neg (fun hcon => h1 hcon.1)]

set_option maxRecDepth 10000 in
/-- Witness for `stages_spec`: the derivative of the first pass's two-sample
filtered window has length 1. -/
theorem stages_spec_witness :
    (ediff1d (lfilter [1] [1] (pushWindow [0] 1))).length =
      (lfilter [1] [1] (pushWindow [0] 1)).length - 1 :=
  (stages_spec [1] [1] [0] 1 (by simp)).2.2.1

set_option maxRecDepth 4000 in
theorem detect_qrs_fires (st : QRSState) (ps : List (Nat × ℚ)) (idx : Nat) (v : ℚ)
    (helig : refractory_period < st.time_since_last_detected_qrs + 1)
    (hlast : ps.getLast? = some (idx, v)) (hv : st.threshold_value < v) :
    (detect_qrs st ps).2 = true := by
  simp only [detect_qrs, hlast]
  rw [if_pos helig, if_pos hv]

set_option maxRecDepth 4000 in
theorem detect_qrs_levels (st : QRSState) (ps : List (Nat × ℚ))
    (hnc : ¬ (refractory_period < st.time_since_last_detected_qrs + 1 ∧ ps ≠ [])) :
    (detect_qrs st ps).1.signal_peak_value = st.signal_peak_value ∧
    (detect_qrs st ps).1.noise_peak_value = st.noise_peak_value ∧
    (detect_qrs st ps).1.threshold_value = st.threshold_value ∧
    (detect_qrs st ps).2 = false := by
  by_cases h1 : refractory_period < st.time_since_last_detected_qrs + 1
  · have hps : ps = [] := by
      by_contra hne
      exact hnc ⟨h1, hne⟩
    subst hps
    simp [detect_qrs, h1]
  · simp [detect_qrs, h1]

set_option maxRecDepth 10000 in
/-- Claim C7.  A fresh engine has `signal_peak_value = noise_peak_value =
threshold_value = 0`; a call that does not reach the classification step
leaves all three levels unchanged (so they stay `0` until the first
classification); every index produced by `findpeaks` has value strictly above
the (positive) amplitude floor; hence the first candidate to reach the
classification step — evaluated against `threshold_value = 0` — is classified
SIGNAL and a detection is emitted. -/
theorem first_peak_signal_spec (b a : List ℚ) (st : QRSState) (m : ℚ)
    (h0 : st.threshold_value = 0) (hc : classifiesAt b a st m = true) :
    (process_measurement b a st m).2 = true ∧
    initState.signal_peak_value = 0 ∧ initState.noise_peak_value = 0 ∧
    initState.threshold_value = 0 ∧ (0 : ℚ) < findpeaks_limit ∧
    (∀ (data : List ℚ) (sp : Nat) (L : ℚ) (i : Nat),
      i ∈ findpeaks data sp L → L < data.getD i 0) ∧
    (∀ (b' a' : List ℚ) (st' : QRSState) (m' : ℚ), classifiesAt b' a' st' m' = false →
      (process_measurement b' a' st' m').1.signal_peak_value = st'.signal_peak_value ∧
      (process_measurement b' a' st' m').1.noise_peak_value = st'.noise_peak_value ∧
      (process_measurement b' a' st' m').1.threshold_value = st'.threshold_value ∧
      (process_measurement b' a' st' m').2 = false) := by
  have hfloor : (0 : ℚ) < findpeaks_limit := by norm_num [findpeaks_limit]
  refine ⟨?_, rfl, rfl, rfl, hfloor, fun data sp L i h => findpeaks_mem_limit data sp L i h,
    fun b' a' st' m' hc' => ?_⟩
  · by_cases hm : (10 : ℚ) < m
    · rw [classifiesAt, if_pos hm] at hc
      exact absurd hc (by simp)
    · rw [classifiesAt, if_neg hm, Bool.and_eq_true, decide_eq_true_iff] at hc
      obtain ⟨helig, hne⟩ := hc
      rw [Bool.not_eq_eq_eq_not, Bool.not_true, List.isEmpty_eq_false] at hne
      obtain ⟨p, hp⟩ := Option.isSome_iff_exists.1 (List.getLast?_isSome.2 hne)
      obtain ⟨idx, v⟩ := p
      have hmem := getLast?_mem' hp
      obtain ⟨i0, hi0, heq⟩ := List.mem_map.1 hmem
      have hval : v = (integratedSignal b a
          (pushWindow st.most_recent_measurements m)).getD i0 0 :=
        (congrArg Prod.snd heq).symm
      have hfp : i0 ∈ findpeaks (integratedSignal b a
          (pushWindow st.most_recent_measurements m)) findpeaks_spacing findpeaks_limit :=
        (List.mem_filter.1 hi0).1
      have hvpos : st.threshold_value < v := by
        rw [h0, hval]
        exact lt_trans hfloor (findpeaks_mem_limit _ _ _ _ hfp)
      rw [process_measurement, if_neg hm]
      exact detect_qrs_fires _ _ idx v helig hp hvpos
  · by_cases hm' : (10 : ℚ) < m'
    · rw [process_measurement, if_pos hm']
      exact ⟨rfl, rfl, rfl, rfl⟩
    · rw [classifiesAt, if_neg hm'] at hc'
      rw [process_measurement, if_neg hm', extract_peaks]
      apply detect_qrs_levels
      rintro ⟨helig', hne'⟩
      rcases Bool.and_eq_false_iff.1 hc' with h | h
      · rw [decide_eq_false_iff_not] at h
        exact h helig'
      · rw [Bool.not_eq_eq_eq_not, Bool.not_false, List.isEmpty_iff] at h
        exact hne' h

set_option maxRecDepth 40000 in
/-- Witness for `first_peak_signal_spec`: a concrete fresh-thresholds state
whose next sample completes a window with an integrated-signal peak at index
161 (past the restriction cutoff), at counter 120, fires a detection. -/
theorem first_peak_signal_spec_witness :
    (process_measurement [1] [1]
      ⟨List.replicate 148 0 ++ List.replicate 14 1, 120, 0, 0, 0⟩ 2).2 = true :=
  (first_peak_signal_spec [1] [1]
    ⟨List.replicate 148 0 ++ List.replicate 14 1, 120, 0, 0, 0⟩ 2 rfl
    (by with_unfolding_all decide)).1

end QRS
